import Mathlib

/-!
Shallow embedding of `src/norm.py` (class `NormalizadorEspectro`), an
interactive spectrum continuum normalizer.  The session state and its five
core operations — anchor addition (`_ao_clicar`, left click), nearest-anchor
removal (`_ao_clicar`, right click), the iterative sigma-clipped spline fit
(`_ajustar_continuo`), normalization (`_normalizar_espectro`) and reset
(`_redefinir_plot`) — are translated over exact rationals.  The external
scipy spline solver (`splrep`/`splev`) is modelled as an oracle parameter:
`none` models `splrep` raising an exception, `some f` models a successful
fit whose `splev` evaluation is the function `f`.

Numeric notes recorded where they matter:
* Python `int()` truncates toward zero; modelled exactly by `pyInt`.
* `np.argmin` returns the first index attaining the minimum; modelled by
  `argminIdx`.
* `np.median` sorts and takes the middle element (odd length) or the mean
  of the two middle elements (even length); modelled by `medianQ` via an
  insertion sort (the sorted list of rationals is unique, so the sorting
  algorithm used does not affect the median value).
* In `_ao_clicar` the distances to anchors are `sqrt((px-x)^2+(py-y)^2)`;
  since `Real.sqrt` is strictly monotone on nonnegatives, the index of the
  first minimum of the square roots equals that of the squared distances,
  which is what `ao_clicar_remove` computes in exact arithmetic.
* `np.std` is the population standard deviation `sqrt(popVar)`.  The keep
  mask comparisons `r >= -low*sigma` / `r <= high*sigma` are decided in
  exact rational arithmetic through the equivalent squared comparisons;
  theorem `clipping_keep_rule` proves this form equivalent to the
  `Real.sqrt` form, so the mask is extensionally the source's mask.
-/

/-- Python `int()` applied to a rational: truncation toward zero. -/
def pyInt (q : ℚ) : ℤ := if 0 ≤ q then ⌊q⌋ else ⌈q⌉

/-- Index of the first minimal element of a list, as `np.argmin`
(ties broken by first occurrence; `0` on the empty list). -/
def argminIdx : List ℚ → ℕ
  | [] => 0
  | [_] => 0
  | x :: y :: rest =>
    let j := argminIdx (y :: rest)
    if x ≤ (y :: rest).getD j 0 then 0 else j + 1

/-- Insertion of a rational into a sorted list (helper for `sortQ`). -/
def insQ (x : ℚ) : List ℚ → List ℚ
  | [] => [x]
  | y :: ys => if x ≤ y then x :: y :: ys else y :: insQ x ys

/-- Ascending insertion sort on rationals. -/
def sortQ (l : List ℚ) : List ℚ := l.foldr insQ []

/-- Median of a list of rationals, as `np.median`: middle element of the
sorted list for odd length, mean of the two middle elements for even
length. -/
def medianQ (l : List ℚ) : ℚ :=
  let s := sortQ l
  let n := s.length
  if n % 2 = 1 then s.getD (n / 2) 0
  else (s.getD (n / 2 - 1) 0 + s.getD (n / 2) 0) / 2

/-- Session state of `NormalizadorEspectro`: the loaded signal
(`wavelength`, `flux`), the selected continuum anchors
(`pontos_continuo_selecionados`), the fitted continuum
(`continuo_ajustado`, `none` when absent) and the normalized flux
(`fluxo_normalizado`, `none` when absent). -/
structure Estado where
  wavelength : List ℚ
  flux : List ℚ
  pontos : List (ℚ × ℚ)
  continuo : Option (List ℚ)
  fluxoNorm : Option (List ℚ)
deriving DecidableEq

/-- The y-value derived for a picked x-coordinate in `_ao_clicar`
(left click): nearest-sample index by `np.argmin(|wavelength - x|)`,
half-window `int(median_window_size / (wavelength[1]-wavelength[0]) / 2)`
(zero if the signal has fewer than 2 samples), window clamped to the index
range; raw flux at the nearest index if the clamped window collapses
(`inicio >= fim`), else the median of flux over the inclusive window. -/
def y_mediana (median_window x_clique : ℚ) (s : Estado) : ℚ :=
  let idx := argminIdx (s.wavelength.map (fun w => |w - x_clique|))
  let meia : ℤ :=
    if 1 < s.wavelength.length then
      pyInt (median_window / (s.wavelength.getD 1 0 - s.wavelength.getD 0 0) / 2)
    else 0
  let inicio : ℤ := max 0 ((idx : ℤ) - meia)
  let fim : ℤ := min ((s.wavelength.length : ℤ) - 1) ((idx : ℤ) + meia)
  if fim ≤ inicio then s.flux.getD idx 0
  else medianQ ((s.flux.drop inicio.toNat).take (fim.toNat + 1 - inicio.toNat))

/-- Left click in `_ao_clicar`: append the anchor `(x_clique, y_val)` to
`pontos_continuo_selecionados`.  No other state field is touched. -/
def ao_clicar_add (median_window x_clique : ℚ) (s : Estado) : Estado :=
  { s with pontos := s.pontos ++ [(x_clique, y_mediana median_window x_clique s)] }

/-- Derived y-value as the specification words it: same nearest-sample
index, half-window `floor(window_width / step / 2)` with the mathematical
floor, window clamped to the index range, raw y on a collapsed window,
else the median over the inclusive window.  Compared against the code's
`y_mediana` (which uses Python `int()`, truncation toward zero) in
theorem `anchor_y_from_median`. -/
def y_mediana_spec (median_window x_clique : ℚ) (s : Estado) : ℚ :=
  let idx := argminIdx (s.wavelength.map (fun w => |w - x_clique|))
  let meia : ℤ :=
    if 1 < s.wavelength.length then
      ⌊median_window / (s.wavelength.getD 1 0 - s.wavelength.getD 0 0) / 2⌋
    else 0
  let inicio : ℤ := max 0 ((idx : ℤ) - meia)
  let fim : ℤ := min ((s.wavelength.length : ℤ) - 1) ((idx : ℤ) + meia)
  if fim ≤ inicio then s.flux.getD idx 0
  else medianQ ((s.flux.drop inicio.toNat).take (fim.toNat + 1 - inicio.toNat))

/-- Right click in `_ao_clicar`: no-op if no anchors are selected, else
remove the anchor at the first index minimizing the Euclidean distance to
the click (squared distances here; `sqrt` preserves the argmin). -/
def ao_clicar_remove (x_clique y_clique : ℚ) (s : Estado) : Estado :=
  if s.pontos.isEmpty then s
  else
    let distancias := s.pontos.map
      (fun p => (p.1 - x_clique) ^ 2 + (p.2 - y_clique) ^ 2)
    { s with pontos := s.pontos.eraseIdx (argminIdx distancias) }

/-- Reset `_redefinir_plot`: clear the anchors, the fitted continuum and
the normalized flux. -/
def redefinir_plot (s : Estado) : Estado :=
  { s with pontos := [], continuo := none, fluxoNorm := none }

/-- Mean of a list of rationals (`np.mean`; 0 on the empty list since
rational division by zero is zero). -/
def media (l : List ℚ) : ℚ := l.sum / l.length

/-- Population variance (the square of `np.std`): mean of squared
deviations from the mean, dividing by N. -/
def popVar (l : List ℚ) : ℚ := (l.map (fun x => (x - media l) ^ 2)).sum / l.length

/-- Keep mask of one sigma-clipping iteration (`manter_indices` in
`_ajustar_continuo`): start from all-true; when `low_reject > 0` require
`residuo >= -low_reject*sigma`; when `high_reject > 0` require
`residuo <= high_reject*sigma`, with `sigma = np.std(residuos)`.
Each comparison against `sigma = sqrt(popVar)` is decided by the
equivalent squared rational comparison (see `clipping_keep_rule`). -/
def manter_indices (low high : ℚ) (residuos : List ℚ) : List Bool :=
  let V := popVar residuos
  residuos.map (fun r =>
    (if 0 < low then decide (0 ≤ r) || decide (r ^ 2 ≤ low ^ 2 * V) else true) &&
    (if 0 < high then decide (r ≤ 0) || decide (r ^ 2 ≤ high ^ 2 * V) else true))

/-- Residuals `y_atuais - splev(x_atuais, spl)` for a spline evaluation
function `f`. -/
def residuosDe (f : ℚ → ℚ) (pts : List (ℚ × ℚ)) : List ℚ :=
  pts.map (fun p => p.2 - f p.1)

/-- Boolean-mask filtering `x_atuais[manter_indices]`. -/
def applyMask (pts : List (ℚ × ℚ)) (mask : List Bool) : List (ℚ × ℚ) :=
  ((pts.zip mask).filter (fun pb => pb.2)).map Prod.fst

/-- Model of the external spline solver: `splrep` followed by `splev`.
`none` models `splrep` raising (degenerate abscissae, duplicate x, too few
points); `some f` models a successful fit evaluated by `f`. -/
def Oracle : Type := List (ℚ × ℚ) → Option (ℚ → ℚ)

/-- The sigma-clipping loop of `_ajustar_continuo`
(`for i in range(self.niterate)`), on the current anchor list.  Exits: the
fuel runs out (loop exhausted); fewer than 2 points remain at entry
(`break`); the solver raises (`except: break`); the mask accepts all
points or would leave fewer than 2 (`break` before applying the mask).
Otherwise the mask is applied and the loop continues. -/
def sigmaClipLoop (oracle : Oracle) (low high : ℚ) :
    ℕ → List (ℚ × ℚ) → List (ℚ × ℚ)
  | 0, pts => pts
  | n + 1, pts =>
    if pts.length < 2 then pts
    else
      match oracle pts with
      | none => pts
      | some f =>
        let mask := manter_indices low high (residuosDe f pts)
        if mask.all id = true ∨ mask.count true < 2 then pts
        else sigmaClipLoop oracle low high n (applyMask pts mask)

/-- Trace of the sigma-clipping loop: the successive anchor lists produced
by each pass that actually applied its mask (empty when the first pass
already stops). -/
def sigmaClipTrace (oracle : Oracle) (low high : ℚ) :
    ℕ → List (ℚ × ℚ) → List (List (ℚ × ℚ))
  | 0, _ => []
  | n + 1, pts =>
    if pts.length < 2 then []
    else
      match oracle pts with
      | none => []
      | some f =>
        let mask := manter_indices low high (residuosDe f pts)
        if mask.all id = true ∨ mask.count true < 2 then []
        else
          applyMask pts mask :: sigmaClipTrace oracle low high n (applyMask pts mask)

/-- Insertion into a list sorted by the x-coordinate (helper for
`ordenar_por_x`). -/
def insP (p : ℚ × ℚ) : List (ℚ × ℚ) → List (ℚ × ℚ)
  | [] => [p]
  | q :: qs => if p.1 ≤ q.1 then p :: q :: qs else q :: insP p qs

/-- Sorting of the anchors by wavelength (`np.argsort` applied to both
coordinate arrays), as an insertion sort on pairs keyed by `Prod.fst`. -/
def ordenar_por_x (l : List (ℚ × ℚ)) : List (ℚ × ℚ) := l.foldr insP []

/-- Failure conditions of `_ajustar_continuo`: fewer than 2 selected
anchors, or the spline solver failing. -/
inductive FitErr where
  | insufficientAnchors
  | splineFitFailed
deriving DecidableEq

/-- The fit `_ajustar_continuo`.  With fewer than 2 selected anchors it
reports and returns with no state change.  Otherwise it sorts the anchors
by x, runs the sigma-clipping loop, and (the `len < 2` guard, kept from
the source, clears the continuum — it is in fact unreachable, see
`errors_preserve_session`) performs the final spline fit on the survivors
and evaluates it over the full wavelength grid.  The final `splrep` call
sits outside the loop's `try`: an exception there propagates out of the
handler before any assignment, so the state is returned unchanged with
the failure reported. -/
def ajustar_continuo (oracle : Oracle) (low high : ℚ) (niterate : ℕ)
    (s : Estado) : Estado × Option FitErr :=
  if s.pontos.length < 2 then (s, some FitErr.insufficientAnchors)
  else
    let ordenados := ordenar_por_x s.pontos
    let finais := sigmaClipLoop oracle low high niterate ordenados
    if finais.length < 2 then
      ({ s with continuo := none, fluxoNorm := none }, some FitErr.splineFitFailed)
    else
      match oracle finais with
      | none => (s, some FitErr.splineFitFailed)
      | some f =>
        ({ s with continuo := some (s.wavelength.map f), fluxoNorm := none }, none)

/-- Failure condition of `_normalizar_espectro`: no fitted continuum. -/
inductive NormErr where
  | continuumUnset
deriving DecidableEq

/-- Normalization `_normalizar_espectro`: with no fitted continuum report
and change nothing; else store `flux / continuo_ajustado` elementwise. -/
def normalizar_espectro (s : Estado) : Estado × Option NormErr :=
  match s.continuo with
  | none => (s, some NormErr.continuumUnset)
  | some c => ({ s with fluxoNorm := some (List.zipWith (· / ·) s.flux c) }, none)

/-- Concrete spline evaluation used by witnesses: the constant-1 curve. -/
def f_teste : ℚ → ℚ := fun _ => 1

/-- Concrete spline oracle used by witnesses: always succeeds with
`f_teste`. -/
def oracle_teste : Oracle := fun _ => some f_teste

/-- Concrete anchor list used by witnesses: two anchors lying on
`f_teste`. -/
def pts_teste : List (ℚ × ℚ) := [(0, 1), (1, 1)]

/-- Concrete session with a single selected anchor. -/
def s_um : Estado := ⟨[0, 1], [1, 1], [(0, 1)], none, none⟩

/-- Concrete session with no selected anchors. -/
def s_zero : Estado := ⟨[0, 1], [1, 1], [], none, none⟩

/-- Concrete session holding a fitted continuum and a normalized flux. -/
def s_cache : Estado := ⟨[0, 1], [5, 5], [], some [5, 5], some [1, 1]⟩

/-- Concrete session with a defined continuum, for the normalization
witness. -/
def s_norm : Estado := ⟨[0, 1], [2, 4], [], some [2, 2], none⟩

/-- Concrete session whose sole anchor sits at the click coordinates
while the derived anchor lands elsewhere. -/
def s_inv : Estado := ⟨[0, 1, 2], [10, 10, 10], [(0, 0)], none, none⟩

theorem insQ_length (x : ℚ) : ∀ l : List ℚ, (insQ x l).length = l.length + 1 := by
  intro l
  induction l with
  | nil => rfl
  | cons y ys ih =>
    simp only [insQ]
    split
    · rfl
    · simp [ih]

theorem insP_length (p : ℚ × ℚ) :
    ∀ l : List (ℚ × ℚ), (insP p l).length = l.length + 1 := by
  intro l
  induction l with
  | nil => rfl
  | cons q qs ih =>
    simp only [insP]
    split
    · rfl
    · simp [ih]

theorem ordenar_por_x_length (l : List (ℚ × ℚ)) :
    (ordenar_por_x l).length = l.length := by
  induction l with
  | nil => rfl
  | cons p ps ih =>
    show (insP p (ordenar_por_x ps)).length = ps.length + 1
    rw [insP_length, ih]

theorem argminIdx_lt : ∀ l : List ℚ, l ≠ [] → argminIdx l < l.length := by
  intro l
  induction l with
  | nil => simp
  | cons x xs ih =>
    cases xs with
    | nil => intro _; simp [argminIdx]
    | cons y ys =>
      intro _
      simp only [argminIdx]
      split
      · simp
      · have h := ih (by simp)
        simpa [Nat.succ_lt_succ_iff] using h

theorem argminIdx_min :
    ∀ (l : List ℚ) (i : ℕ), i < l.length → l.getD (argminIdx l) 0 ≤ l.getD i 0 := by
  intro l
  induction l with
  | nil => intro i hi; simp at hi
  | cons x xs ih =>
    cases xs with
    | nil =>
      intro i hi
      cases i with
      | zero => simp [argminIdx]
      | succ k => simp at hi
    | cons y ys =>
      intro i hi
      simp only [argminIdx]
      split
      case isTrue h =>
        cases i with
        | zero => simp
        | succ k =>
          have hk : k < (y :: ys).length := by simpa using hi
          calc (x :: y :: ys).getD 0 0 = x := rfl
            _ ≤ (y :: ys).getD (argminIdx (y :: ys)) 0 := h
            _ ≤ (y :: ys).getD k 0 := ih k hk
            _ = (x :: y :: ys).getD (k + 1) 0 := rfl
      case isFalse h =>
        cases i with
        | zero =>
          have : (y :: ys).getD (argminIdx (y :: ys)) 0 ≤ x := le_of_not_le h
          simpa using this
        | succ k =>
          have hk : k < (y :: ys).length := by simpa using hi
          simpa using ih k hk

theorem perm_getD_cons_eraseIdx {α : Type} (d : α) :
    ∀ (l : List α) (j : ℕ), j < l.length →
      List.Perm l (l.getD j d :: l.eraseIdx j) := by
  intro l
  induction l with
  | nil => intro j hj; simp at hj
  | cons x xs ih =>
    intro j hj
    cases j with
    | zero => simp
    | succ k =>
      have hk : k < xs.length := by simpa using hj
      have h1 : List.Perm (x :: xs) (x :: xs.getD k d :: xs.eraseIdx k) :=
        (ih k hk).cons x
      have h2 : List.Perm (x :: xs.getD k d :: xs.eraseIdx k)
          (xs.getD k d :: x :: xs.eraseIdx k) := List.Perm.swap _ _ _
      exact (h1.trans h2)

theorem applyMask_length_le (pts : List (ℚ × ℚ)) (mask : List Bool) :
    (applyMask pts mask).length ≤ pts.length := by
  unfold applyMask
  rw [List.length_map]
  exact le_trans (List.length_filter_le _ _)
    (by rw [List.length_zip]; exact min_le_left _ _)

theorem applyMask_length_count :
    ∀ (pts : List (ℚ × ℚ)) (mask : List Bool), pts.length = mask.length →
      (applyMask pts mask).length = mask.count true := by
  intro pts
  induction pts with
  | nil =>
    intro mask h
    have : mask = [] := List.length_eq_zero.mp h.symm
    subst this
    rfl
  | cons p ps ih =>
    intro mask h
    cases mask with
    | nil => simp at h
    | cons b bs =>
      have hlen : ps.length = bs.length := by simpa using h
      cases b with
      | false =>
        have : applyMask (p :: ps) (false :: bs) = applyMask ps bs := by
          simp [applyMask]
        rw [this, ih bs hlen]
        simp [List.count_cons]
      | true =>
        have : applyMask (p :: ps) (true :: bs) = p :: applyMask ps bs := by
          simp [applyMask]
        rw [this]
        simp only [List.length_cons, ih bs hlen, List.count_cons]
        simp

/-- C4: requesting a fit with fewer than 2 selected anchors reports the
insufficient-anchors condition, performs no fit, and leaves the whole
session state (in particular the continuum) unchanged. -/
theorem fit_requires_two_anchors (oracle : Oracle) (low high : ℚ) (niterate : ℕ)
    (s : Estado) (h : s.pontos.length < 2) :
    ajustar_continuo oracle low high niterate s = (s, some FitErr.insufficientAnchors) := by
  unfold ajustar_continuo
  rw [if_pos h]

/-- C4 witness: a session with one anchor is rejected and untouched. -/
theorem fit_requires_two_anchors_witness :
    ajustar_continuo oracle_teste 3 0 5 s_um = (s_um, some FitErr.insufficientAnchors) :=
  fit_requires_two_anchors oracle_teste 3 0 5 s_um (by simp [s_um])

/-- C10: fitting never mutates the stored anchor set, whatever the spline
oracle does and however the loop exits; normalization does not touch it
either. -/
theorem fit_preserves_anchor_set (oracle : Oracle) (low high : ℚ) (niterate : ℕ)
    (s : Estado) :
    (ajustar_continuo oracle low high niterate s).1.pontos = s.pontos ∧
    (normalizar_espectro s).1.pontos = s.pontos := by
  constructor
  · unfold ajustar_continuo
    split
    · rfl
    · simp only
      split
      · rfl
      · split <;> rfl
  · unfold normalizar_espectro
    split <;> rfl

theorem manter_indices_length (low high : ℚ) (residuos : List ℚ) :
    (manter_indices low high residuos).length = residuos.length := by
  unfold manter_indices
  simp

theorem residuosDe_length (f : ℚ → ℚ) (pts : List (ℚ × ℚ)) :
    (residuosDe f pts).length = pts.length := by
  unfold residuosDe
  simp

/-- Invariant of the sigma-clipping loop: starting from at least 2 anchors
it never drops below 2, because the mask is only applied when at least 2
anchors would survive. -/
theorem sigmaClipLoop_two_le (oracle : Oracle) (low high : ℚ) :
    ∀ (n : ℕ) (pts : List (ℚ × ℚ)), 2 ≤ pts.length →
      2 ≤ (sigmaClipLoop oracle low high n pts).length := by
  intro n
  induction n with
  | zero => intro pts h; exact h
  | succ n ih =>
    intro pts h
    rw [sigmaClipLoop]
    rw [if_neg (by omega)]
    cases hor : oracle pts with
    | none => exact h
    | some f =>
      simp only
      split
      · exact h
      case isFalse hstop =>
        push_neg at hstop
        apply ih
        have hmask : pts.length = (manter_indices low high (residuosDe f pts)).length := by
          rw [manter_indices_length, residuosDe_length]
        rw [applyMask_length_count pts _ hmask]
        omega

/-- C7: all failure paths leave the session intact.  A fit request that
fails — too few anchors, or the spline solver failing (in the loop the
solver failure breaks out; the final solver call sits outside the `try`,
so its failure aborts the handler before any assignment) — returns the
state unchanged; the `len < 2` post-loop branch that would clear the
continuum is unreachable because at least 2 anchors always survive the
loop.  A normalization request without a fitted continuum changes
nothing, and removal from an empty anchor set is a silent no-op. -/
theorem errors_preserve_session :
    (∀ (oracle : Oracle) (low high : ℚ) (niterate : ℕ) (s : Estado) (e : FitErr),
      (ajustar_continuo oracle low high niterate s).2 = some e →
      (ajustar_continuo oracle low high niterate s).1 = s) ∧
    (∀ (s : Estado) (e : NormErr),
      (normalizar_espectro s).2 = some e → (normalizar_espectro s).1 = s) ∧
    (∀ (x y : ℚ) (s : Estado), s.pontos = [] → ao_clicar_remove x y s = s) := by
  refine ⟨?_, ?_, ?_⟩
  · intro oracle low high niterate s e
    unfold ajustar_continuo
    by_cases h2 : s.pontos.length < 2
    · rw [if_pos h2]
      intro _
      rfl
    · rw [if_neg h2]
      simp only
      have hlen : 2 ≤ (sigmaClipLoop oracle low high niterate (ordenar_por_x s.pontos)).length := by
        apply sigmaClipLoop_two_le
        rw [ordenar_por_x_length]
        omega
      rw [if_neg (by omega)]
      cases hor : oracle (sigmaClipLoop oracle low high niterate (ordenar_por_x s.pontos)) with
      | none => intro _; rfl
      | some f => intro h; simp at h
  · intro s e
    unfold normalizar_espectro
    cases hc : s.continuo with
    | none => intro _; rfl
    | some c => intro h; simp at h
  · intro x y s hp
    unfold ao_clicar_remove
    rw [if_pos (by simp [hp])]

/-- C7 witness: a one-anchor fit request, a normalization request without
a continuum, and a removal from an empty anchor set, all leave their
concrete sessions untouched. -/
theorem errors_preserve_session_witness :
    (ajustar_continuo oracle_teste 3 0 5 s_um).1 = s_um ∧
    (normalizar_espectro s_um).1 = s_um ∧
    ao_clicar_remove 0 0 s_zero = s_zero :=
  ⟨errors_preserve_session.1 oracle_teste 3 0 5 s_um FitErr.insufficientAnchors rfl,
   errors_preserve_session.2.1 s_um NormErr.continuumUnset rfl,
   errors_preserve_session.2.2 0 0 s_zero rfl⟩

/-- C3: whenever an iteration of the loop finds that the keep mask
accepts every current anchor, or that fewer than 2 anchors would survive
it, the loop stops and returns the anchor set from before applying that
mask; the final fit therefore uses that retained set. -/
theorem clip_stop_retains_premask (oracle : Oracle) (low high : ℚ) (n : ℕ)
    (pts : List (ℚ × ℚ)) (f : ℚ → ℚ) (hlen : ¬ pts.length < 2)
    (hf : oracle pts = some f)
    (hstop : (manter_indices low high (residuosDe f pts)).all id = true ∨
      (manter_indices low high (residuosDe f pts)).count true < 2) :
    sigmaClipLoop oracle low high (n + 1) pts = pts := by
  rw [sigmaClipLoop, if_neg hlen, hf]
  simp only
  rw [if_pos hstop]

/-- C3 witness: with the constant oracle all residuals vanish, the mask
keeps both anchors, and the loop with fuel 5 returns them unchanged. -/
theorem clip_stop_retains_premask_witness :
    sigmaClipLoop oracle_teste 3 0 (4 + 1) pts_teste = pts_teste :=
  clip_stop_retains_premask oracle_teste 3 0 4 pts_teste f_teste
    (by simp [pts_teste]) rfl
    (Or.inl (by norm_num [manter_indices, residuosDe, pts_teste, f_teste, popVar, media]))

/-- C8 counterexample: the claim says adding an anchor invalidates the
cached continuum and normalized flux; on the code a left click only
appends the anchor, so a concrete session with both caches set keeps them
after `ao_clicar_add`. -/
theorem add_keeps_caches_counterexample :
    (ao_clicar_add 10 0 s_cache).continuo ≠ none ∧
    (ao_clicar_add 10 0 s_cache).fluxoNorm ≠ none := by
  constructor <;> simp [ao_clicar_add, s_cache]

/-- C8 amended: reset (`_redefinir_plot`) invalidates both the cached
continuum and the cached normalized flux, but anchor addition and removal
leave both caches exactly as they were. -/
theorem cache_invalidation_amended (s : Estado) (w x y : ℚ) :
    (redefinir_plot s).pontos = [] ∧
    (redefinir_plot s).continuo = none ∧
    (redefinir_plot s).fluxoNorm = none ∧
    (ao_clicar_add w x s).continuo = s.continuo ∧
    (ao_clicar_add w x s).fluxoNorm = s.fluxoNorm ∧
    (ao_clicar_remove x y s).continuo = s.continuo ∧
    (ao_clicar_remove x y s).fluxoNorm = s.fluxoNorm := by
  refine ⟨rfl, rfl, rfl, rfl, rfl, ?_, ?_⟩ <;>
    · unfold ao_clicar_remove
      split <;> rfl

/-- C5: along the sigma-clipping loop the surviving anchor count is
non-increasing from one iteration to the next (the trace collects the
anchor list after each pass that applied its mask), the loop makes at
most `niterate` such passes, and the loop's final anchor list is the last
entry of the trace. -/
theorem clip_monotone_bounded (oracle : Oracle) (low high : ℚ) :
    ∀ (n : ℕ) (pts : List (ℚ × ℚ)),
      List.Chain' (fun a b => b.length ≤ a.length)
        (pts :: sigmaClipTrace oracle low high n pts) ∧
      (sigmaClipTrace oracle low high n pts).length ≤ n ∧
      sigmaClipLoop oracle low high n pts =
        (sigmaClipTrace oracle low high n pts).getLastD pts := by
  intro n
  induction n with
  | zero => intro pts; exact ⟨List.chain'_singleton pts, Nat.le_refl 0, rfl⟩
  | succ n ih =>
    intro pts
    simp only [sigmaClipTrace, sigmaClipLoop]
    by_cases h2 : pts.length < 2
    · rw [if_pos h2, if_pos h2]
      exact ⟨List.chain'_singleton pts, Nat.zero_le _, rfl⟩
    · rw [if_neg h2, if_neg h2]
      cases hor : oracle pts with
      | none => exact ⟨List.chain'_singleton pts, Nat.zero_le _, rfl⟩
      | some f =>
        simp only
        by_cases hstop : (manter_indices low high (residuosDe f pts)).all id = true ∨
            (manter_indices low high (residuosDe f pts)).count true < 2
        · rw [if_pos hstop, if_pos hstop]
          exact ⟨List.chain'_singleton pts, Nat.zero_le _, rfl⟩
        · rw [if_neg hstop, if_neg hstop]
          obtain ⟨ih1, ih2, ih3⟩ :=
            ih (applyMask pts (manter_indices low high (residuosDe f pts)))
          refine ⟨?_, ?_, ?_⟩
          · rw [List.chain'_cons]
            exact ⟨applyMask_length_le _ _, ih1⟩
          · simpa using Nat.succ_le_succ ih2
          · rw [ih3, List.getLastD_cons]

theorem popVar_nonneg (l : List ℚ) : 0 ≤ popVar l := by
  unfold popVar
  apply div_nonneg
  · apply List.sum_nonneg
    intro x hx
    simp only [List.mem_map] at hx
    obtain ⟨y, _, rfl⟩ := hx
    positivity
  · exact_mod_cast Nat.zero_le _

theorem keep_low_iff (low V r : ℚ) (hlow : 0 < low) (hV : 0 ≤ V) :
    ((decide (0 ≤ r) || decide (r ^ 2 ≤ low ^ 2 * V)) = true) ↔
      -((low : ℝ) * Real.sqrt (V : ℝ)) ≤ (r : ℝ) := by
  have hs : (0 : ℝ) ≤ Real.sqrt (V : ℝ) := Real.sqrt_nonneg _
  have hlowR : (0 : ℝ) < (low : ℝ) := by exact_mod_cast hlow
  have hVR : (0 : ℝ) ≤ (V : ℝ) := by exact_mod_cast hV
  have hsq : ((low : ℝ) * Real.sqrt (V : ℝ)) ^ 2 = (low : ℝ) ^ 2 * (V : ℝ) := by
    rw [mul_pow, Real.sq_sqrt hVR]
  have hprod : (0 : ℝ) ≤ (low : ℝ) * Real.sqrt (V : ℝ) := mul_nonneg hlowR.le hs
  simp only [Bool.or_eq_true, decide_eq_true_eq]
  constructor
  · rintro (h | h)
    · have hr : (0 : ℝ) ≤ (r : ℝ) := by exact_mod_cast h
      linarith
    · have hr2 : ((r : ℝ)) ^ 2 ≤ (low : ℝ) ^ 2 * (V : ℝ) := by exact_mod_cast h
      have h1 : -(r : ℝ) ≤ |(r : ℝ)| := neg_le_abs _
      have h2 : |(r : ℝ)| = Real.sqrt ((r : ℝ) ^ 2) := (Real.sqrt_sq_eq_abs _).symm
      have h3 : Real.sqrt ((r : ℝ) ^ 2) ≤
          Real.sqrt (((low : ℝ) * Real.sqrt (V : ℝ)) ^ 2) := by
        apply Real.sqrt_le_sqrt
        rw [hsq]
        exact hr2
      have h4 : Real.sqrt (((low : ℝ) * Real.sqrt (V : ℝ)) ^ 2) =
          (low : ℝ) * Real.sqrt (V : ℝ) := Real.sqrt_sq hprod
      linarith
  · intro h
    by_cases hr : 0 ≤ r
    · exact Or.inl hr
    · right
      push_neg at hr
      have hrR : (r : ℝ) < 0 := by exact_mod_cast hr
      have h1 : -(r : ℝ) ≤ (low : ℝ) * Real.sqrt (V : ℝ) := by linarith
      have h2 : (0 : ℝ) ≤ -(r : ℝ) := by linarith
      have h3 : (-(r : ℝ)) ^ 2 ≤ ((low : ℝ) * Real.sqrt (V : ℝ)) ^ 2 :=
        pow_le_pow_left₀ h2 h1 2
      rw [neg_pow, hsq] at h3
      have h4 : ((r : ℝ)) ^ 2 ≤ (low : ℝ) ^ 2 * (V : ℝ) := by
        simpa using h3
      exact_mod_cast h4

theorem keep_high_iff (high V r : ℚ) (hhigh : 0 < high) (hV : 0 ≤ V) :
    ((decide (r ≤ 0) || decide (r ^ 2 ≤ high ^ 2 * V)) = true) ↔
      (r : ℝ) ≤ (high : ℝ) * Real.sqrt (V : ℝ) := by
  have hs : (0 : ℝ) ≤ Real.sqrt (V : ℝ) := Real.sqrt_nonneg _
  have hhighR : (0 : ℝ) < (high : ℝ) := by exact_mod_cast hhigh
  have hVR : (0 : ℝ) ≤ (V : ℝ) := by exact_mod_cast hV
  have hsq : ((high : ℝ) * Real.sqrt (V : ℝ)) ^ 2 = (high : ℝ) ^ 2 * (V : ℝ) := by
    rw [mul_pow, Real.sq_sqrt hVR]
  have hprod : (0 : ℝ) ≤ (high : ℝ) * Real.sqrt (V : ℝ) := mul_nonneg hhighR.le hs
  simp only [Bool.or_eq_true, decide_eq_true_eq]
  constructor
  · rintro (h | h)
    · have hr : (r : ℝ) ≤ 0 := by exact_mod_cast h
      linarith
    · have hr2 : ((r : ℝ)) ^ 2 ≤ (high : ℝ) ^ 2 * (V : ℝ) := by exact_mod_cast h
      have h1 : (r : ℝ) ≤ |(r : ℝ)| := le_abs_self _
      have h2 : |(r : ℝ)| = Real.sqrt ((r : ℝ) ^ 2) := (Real.sqrt_sq_eq_abs _).symm
      have h3 : Real.sqrt ((r : ℝ) ^ 2) ≤
          Real.sqrt (((high : ℝ) * Real.sqrt (V : ℝ)) ^ 2) := by
        apply Real.sqrt_le_sqrt
        rw [hsq]
        exact hr2
      have h4 : Real.sqrt (((high : ℝ) * Real.sqrt (V : ℝ)) ^ 2) =
          (high : ℝ) * Real.sqrt (V : ℝ) := Real.sqrt_sq hprod
      linarith
  · intro h
    by_cases hr : r ≤ 0
    · exact Or.inl hr
    · right
      push_neg at hr
      have hrR : (0 : ℝ) < (r : ℝ) := by exact_mod_cast hr
      have h3 : ((r : ℝ)) ^ 2 ≤ ((high : ℝ) * Real.sqrt (V : ℝ)) ^ 2 :=
        pow_le_pow_left₀ hrR.le h 2
      rw [hsq] at h3
      exact_mod_cast h3

/-- C1: an anchor with residual `r` (actual y minus fitted y) survives a
sigma-clipping iteration exactly when
`(low_reject <= 0 OR r >= -low_reject*sigma) AND
 (high_reject <= 0 OR r <= high_reject*sigma)`, where `sigma` is the
population standard deviation `sqrt(popVar)` of the residuals over the
current anchors; a threshold of 0 (or below) on a side accepts everything
on that side. -/
theorem clipping_keep_rule (low high : ℚ) (residuos : List ℚ) (i : ℕ)
    (hi : i < residuos.length) :
    ((manter_indices low high residuos).getD i false = true) ↔
      ((low ≤ 0 ∨
          -((low : ℝ) * Real.sqrt ((popVar residuos : ℚ) : ℝ)) ≤
            ((residuos.getD i 0 : ℚ) : ℝ)) ∧
       (high ≤ 0 ∨
          ((residuos.getD i 0 : ℚ) : ℝ) ≤
            (high : ℝ) * Real.sqrt ((popVar residuos : ℚ) : ℝ))) := by
  have hV := popVar_nonneg residuos
  have hmap : (manter_indices low high residuos).getD i false =
      ((if 0 < low then
          decide (0 ≤ residuos.getD i 0) ||
            decide ((residuos.getD i 0) ^ 2 ≤ low ^ 2 * popVar residuos)
        else true) &&
       (if 0 < high then
          decide (residuos.getD i 0 ≤ 0) ||
            decide ((residuos.getD i 0) ^ 2 ≤ high ^ 2 * popVar residuos)
        else true)) := by
    unfold manter_indices
    rw [List.getD_eq_getElem _ _ (by simpa using hi), List.getD_eq_getElem _ _ hi,
      List.getElem_map]
  rw [hmap, Bool.and_eq_true]
  have hlowpart : ((if 0 < low then
        decide (0 ≤ residuos.getD i 0) ||
          decide ((residuos.getD i 0) ^ 2 ≤ low ^ 2 * popVar residuos)
      else true) = true) ↔
      (low ≤ 0 ∨
        -((low : ℝ) * Real.sqrt ((popVar residuos : ℚ) : ℝ)) ≤
          ((residuos.getD i 0 : ℚ) : ℝ)) := by
    by_cases hl : 0 < low
    · rw [if_pos hl, keep_low_iff low (popVar residuos) (residuos.getD i 0) hl hV]
      constructor
      · exact fun h => Or.inr h
      · rintro (h | h)
        · exact absurd hl (not_lt.mpr h)
        · exact h
    · rw [if_neg hl]
      simp only [true_iff]
      exact Or.inl (not_lt.mp hl)
  have hhighpart : ((if 0 < high then
        decide (residuos.getD i 0 ≤ 0) ||
          decide ((residuos.getD i 0) ^ 2 ≤ high ^ 2 * popVar residuos)
      else true) = true) ↔
      (high ≤ 0 ∨
        ((residuos.getD i 0 : ℚ) : ℝ) ≤
          (high : ℝ) * Real.sqrt ((popVar residuos : ℚ) : ℝ)) := by
    by_cases hh : 0 < high
    · rw [if_pos hh, keep_high_iff high (popVar residuos) (residuos.getD i 0) hh hV]
      constructor
      · exact fun h => Or.inr h
      · rintro (h | h)
        · exact absurd hh (not_lt.mpr h)
        · exact h
    · rw [if_neg hh]
      simp only [true_iff]
      exact Or.inl (not_lt.mp hh)
  rw [hlowpart, hhighpart]

/-- C1 witness: residuals `[1, -1]` with `low_reject = 3`,
`high_reject = 0`: the first residual is kept, and the rule's two sides
agree on it. -/
theorem clipping_keep_rule_witness :
    (((manter_indices 3 0 [1, -1]).getD 0 false = true) ↔
      (((3 : ℚ) ≤ 0 ∨
          -(((3 : ℚ) : ℝ) * Real.sqrt ((popVar [1, -1] : ℚ) : ℝ)) ≤
            (([1, -1].getD 0 0 : ℚ) : ℝ)) ∧
       ((0 : ℚ) ≤ 0 ∨
          (([1, -1].getD 0 0 : ℚ) : ℝ) ≤
            ((0 : ℚ) : ℝ) * Real.sqrt ((popVar [1, -1] : ℚ) : ℝ)))) :=
  clipping_keep_rule 3 0 [1, -1] 0 (by simp)

theorem pyInt_eq_floor (q : ℚ) (h : 0 ≤ q) : pyInt q = ⌊q⌋ := by
  unfold pyInt
  rw [if_pos h]

/-- C2: a left click appends exactly one anchor whose y-value is derived
as the spec describes — `step` from the first two samples (zero-width
window below 2 samples), `half = floor(window_width / step / 2)`, window
clamped to the index range, raw y at the nearest sample on a collapsed
window, else the median over the inclusive window.  The hypothesis (the
quotient is nonnegative, which holds for any ascending signal and
nonnegative window width) is what makes Python's `int()` truncation agree
with the spec's floor. -/
theorem anchor_y_from_median (w x : ℚ) (s : Estado)
    (hq : 1 < s.wavelength.length →
      0 ≤ w / (s.wavelength.getD 1 0 - s.wavelength.getD 0 0)) :
    (ao_clicar_add w x s).pontos = s.pontos ++ [(x, y_mediana w x s)] ∧
    y_mediana w x s = y_mediana_spec w x s := by
  refine ⟨rfl, ?_⟩
  simp only [y_mediana, y_mediana_spec]
  by_cases hlen : 1 < s.wavelength.length
  · simp only [if_pos hlen]
    have h2 : 0 ≤ w / (s.wavelength.getD 1 0 - s.wavelength.getD 0 0) / 2 :=
      div_nonneg (hq hlen) (by norm_num)
    simp only [pyInt_eq_floor _ h2]
  · simp only [if_neg hlen]

/-- C2 witness: clicking at `x = 0` on the concrete three-sample session
appends the median-derived anchor. -/
theorem anchor_y_from_median_witness :
    (ao_clicar_add 10 0 s_inv).pontos = s_inv.pontos ++ [(0, y_mediana 10 0 s_inv)] ∧
    y_mediana 10 0 s_inv = y_mediana_spec 10 0 s_inv :=
  anchor_y_from_median 10 0 s_inv (by intro _; norm_num [s_inv])

/-- C6: with a fitted continuum of one value per sample, normalization
stores exactly the elementwise quotient `flux[i] / continuo[i]`. -/
theorem normalize_elementwise (s : Estado) (c : List ℚ) (hc : s.continuo = some c)
    (hl : c.length = s.flux.length) :
    ∃ nf, (normalizar_espectro s).1.fluxoNorm = some nf ∧
      nf.length = s.flux.length ∧
      ∀ i, i < nf.length → nf.getD i 0 = s.flux.getD i 0 / c.getD i 0 := by
  refine ⟨List.zipWith (· / ·) s.flux c, ?_, ?_, ?_⟩
  · unfold normalizar_espectro
    rw [hc]
  · rw [List.length_zipWith, hl, min_self]
  · intro i hi
    rw [List.length_zipWith, hl, min_self] at hi
    have hif : i < s.flux.length := hi
    have hic : i < c.length := by omega
    have hiz : i < (List.zipWith (· / ·) s.flux c).length := by
      rw [List.length_zipWith, hl, min_self]
      exact hi
    rw [List.getD_eq_getElem _ _ hiz, List.getD_eq_getElem _ _ hif,
      List.getD_eq_getElem _ _ hic, List.getElem_zipWith]

/-- C6 witness: continuum `[2, 2]` over flux `[2, 4]` normalizes to the
elementwise quotients. -/
theorem normalize_elementwise_witness :
    ∃ nf, (normalizar_espectro s_norm).1.fluxoNorm = some nf ∧
      nf.length = s_norm.flux.length ∧
      ∀ i, i < nf.length →
        nf.getD i 0 = s_norm.flux.getD i 0 / ([2, 2] : List ℚ).getD i 0 :=
  normalize_elementwise s_norm [2, 2] rfl rfl

theorem getD_map_of_lt {A B : Type} (f : A → B) (d0 : A) (db : B) :
    ∀ (l : List A) (i : ℕ), i < l.length → (l.map f).getD i db = f (l.getD i d0) := by
  intro l
  induction l with
  | nil => intro i hi; simp at hi
  | cons a as ih =>
    intro i hi
    cases i with
    | zero => rfl
    | succ k => simpa using ih k (by simpa using hi)

theorem getD_append_singleton {A : Type} (a : A) (d : A) :
    ∀ l : List A, (l ++ [a]).getD l.length d = a := by
  intro l
  induction l with
  | nil => rfl
  | cons b bs ih => simp only [List.cons_append, List.length_cons, List.getD_cons_succ]; exact ih

theorem erase_at_self_perm (l : List (ℚ × ℚ)) (a : ℚ × ℚ) (j : ℕ)
    (hj : j < (l ++ [a]).length) (he : (l ++ [a]).getD j (0, 0) = a) :
    List.Perm ((l ++ [a]).eraseIdx j) l := by
  have h1 := perm_getD_cons_eraseIdx (0, 0) (l ++ [a]) j hj
  rw [he] at h1
  exact (h1.symm.trans (List.perm_append_singleton a l)).cons_inv

theorem remove_last_at_self (l : List (ℚ × ℚ)) (x y : ℚ) :
    List.Perm
      ((l ++ [(x, y)]).eraseIdx
        (argminIdx ((l ++ [(x, y)]).map
          (fun p => (p.1 - x) ^ 2 + (p.2 - y) ^ 2))))
      l := by
  have hjlt : argminIdx ((l ++ [(x, y)]).map
      (fun p => (p.1 - x) ^ 2 + (p.2 - y) ^ 2)) <
      ((l ++ [(x, y)]).map (fun p => (p.1 - x) ^ 2 + (p.2 - y) ^ 2)).length :=
    argminIdx_lt _ (by simp)
  have hjE : argminIdx ((l ++ [(x, y)]).map
      (fun p => (p.1 - x) ^ 2 + (p.2 - y) ^ 2)) < (l ++ [(x, y)]).length := by
    simp only [List.length_map] at hjlt
    exact hjlt
  refine erase_at_self_perm l (x, y) _ hjE ?_
  have hlast : ((l ++ [(x, y)]).map
      (fun p => (p.1 - x) ^ 2 + (p.2 - y) ^ 2)).getD l.length 0 = 0 := by
    rw [getD_map_of_lt _ (0, 0) 0 _ l.length (by simp), getD_append_singleton]
    norm_num
  have hmin := argminIdx_min
    ((l ++ [(x, y)]).map (fun p => (p.1 - x) ^ 2 + (p.2 - y) ^ 2)) l.length (by simp)
  rw [hlast] at hmin
  have hnn : 0 ≤ ((l ++ [(x, y)]).map
      (fun p => (p.1 - x) ^ 2 + (p.2 - y) ^ 2)).getD
        (argminIdx ((l ++ [(x, y)]).map
          (fun p => (p.1 - x) ^ 2 + (p.2 - y) ^ 2))) 0 := by
    rw [getD_map_of_lt _ (0, 0) 0 _ _ hjE]
    positivity
  have hzero := le_antisymm hmin hnn
  rw [getD_map_of_lt _ (0, 0) 0 _ _ hjE] at hzero
  set p := (l ++ [(x, y)]).getD
    (argminIdx ((l ++ [(x, y)]).map
      (fun p => (p.1 - x) ^ 2 + (p.2 - y) ^ 2))) (0, 0) with hp
  have e1 : (p.1 - x) ^ 2 = 0 := by
    nlinarith [sq_nonneg (p.1 - x), sq_nonneg (p.2 - y)]
  have e2 : (p.2 - y) ^ 2 = 0 := by
    nlinarith [sq_nonneg (p.1 - x), sq_nonneg (p.2 - y)]
  have e1' : p.1 = x := by
    have h := (pow_eq_zero_iff two_ne_zero).mp e1
    linarith
  have e2' : p.2 = y := by
    have h := (pow_eq_zero_iff two_ne_zero).mp e2
    linarith
  exact Prod.ext e1' e2'

/-- C9 counterexample: from the session `s_inv` with the single anchor
`(0, 0)`, clicking to add at `(0, 0)` appends the median-derived anchor
`(0, 10)`; removing nearest to the same click coordinates `(0, 0)` then
removes the OLD anchor `(0, 0)` (distance 0 versus 10), so the anchor set
does not return to its prior state. -/
theorem add_remove_inverse_counterexample :
    (ao_clicar_remove 0 0 (ao_clicar_add 10 0 s_inv)).pontos ≠ s_inv.pontos := by
  have hy : y_mediana 10 0 s_inv = 10 := by
    norm_num [y_mediana, s_inv, argminIdx, pyInt, medianQ, sortQ, insQ]
  have hadd : (ao_clicar_add 10 0 s_inv).pontos = [(0, 0), (0, 10)] := by
    show s_inv.pontos ++ [(0, y_mediana 10 0 s_inv)] = [(0, 0), (0, 10)]
    rw [hy]
    rfl
  intro hcontra
  rw [show ao_clicar_remove 0 0 (ao_clicar_add 10 0 s_inv) =
      { ao_clicar_add 10 0 s_inv with
        pontos := (ao_clicar_add 10 0 s_inv).pontos.eraseIdx
          (argminIdx ((ao_clicar_add 10 0 s_inv).pontos.map
            (fun p => (p.1 - 0) ^ 2 + (p.2 - 0) ^ 2))) } from by
    unfold ao_clicar_remove
    rw [if_neg (by rw [hadd]; simp)]] at hcontra
  simp only [hadd] at hcontra
  have hargmin : argminIdx (([(0, 0), (0, 10)] : List (ℚ × ℚ)).map
      (fun p => (p.1 - 0) ^ 2 + (p.2 - 0) ^ 2)) = 0 := by
    norm_num [argminIdx]
  rw [hargmin] at hcontra
  simp [s_inv] at hcontra

/-- C9 amended: adding an anchor and then removing nearest to the ADDED
anchor's own coordinates (the picked x and the median-derived y) returns
the anchor set to its prior state up to ordering (the removed element is
exactly the one at distance zero, which equals the added anchor). -/
theorem add_remove_inverse_amended (w x : ℚ) (s : Estado) :
    List.Perm (ao_clicar_remove x (y_mediana w x s) (ao_clicar_add w x s)).pontos
      s.pontos := by
  have h := remove_last_at_self s.pontos x (y_mediana w x s)
  unfold ao_clicar_remove
  rw [show (ao_clicar_add w x s).pontos =
    s.pontos ++ [(x, y_mediana w x s)] from rfl]
  rw [if_neg (by simp)]
  exact h
